import Mathlib

/-!
Shallow embedding of `src/main.py` (Lenstra's elliptic-curve factorization).

The Python module defines a plane-point class `Point`, an exception
`CannotAdd`, a class `EllipticCurve` with mutable field `div` and methods
`sum` (point addition over Z/NZ, catching its own `CannotAdd`) and `mult`
(double-and-add scalar multiplication), and a driver `Lenstra`.

Mutation of the `div` field is modelled by explicit state passing: each
operation returns the result together with the updated curve record.  The
`try`/`except CannotAdd` structure of `sum` is modelled by an
`Except CannotAdd` valued body (`sumBody`) that `EllipticCurve.sum` catches,
mirroring lines 43-70 of the source.  The `while` loop of `Lenstra` need not
terminate, so it is modelled with explicit fuel, returning `none` when the
fuel runs out before the loop exits.
-/

/-- Coordinates for a point p = (x, y) on the plane (`class Point`, lines 9-22).
The point at infinity (`None` in Python) is `Option.none` at use sites. -/
structure Point where
  x : Int
  y : Int
deriving DecidableEq

/-- The exception raised when a sum cannot be computed (`class CannotAdd`, line 24). -/
inductive CannotAdd where
  | mk
deriving DecidableEq

/-- Modular inverse, modelling the builtin call `pow(a, -1, n)` wrapped by
`inverse` (lines 6-7): the unique b in [0, n) with a * b ≡ 1 (mod n).
Every call site in `sum` first checks `gcd = 1`, so the inverse exists there. -/
def inverse (a n : Int) : Int :=
  match (List.range n.toNat).find? (fun b => (a * (b : Int)) % n == 1) with
  | some b => (b : Int)
  | none => 0

/-- Elliptic curve y² = x³ + ax + b over Z/NZ with the factor-carrying field
`div` (`class EllipticCurve`, lines 27-37).  `div` is set to 1 by `__init__`. -/
structure EllipticCurve where
  a : Int
  b : Int
  N : Int
  div : Int
deriving DecidableEq

/-- The constructor `EllipticCurve.__init__` (lines 33-37): `div` starts at 1. -/
def EllipticCurve.init (a b N : Int) : EllipticCurve :=
  ⟨a, b, N, 1⟩

/-- Body of the `try` block of `EllipticCurve.sum` (lines 44-68): returns the
computed point, or raises `CannotAdd` after recording a common factor in `div`.
`math.gcd` of Python is gcd of absolute values, i.e. `Int.gcd`; `%` on a
positive modulus agrees with `Int.emod`. -/
def sumBody (E : EllipticCurve) (p q : Option Point) :
    Except CannotAdd (Option Point) × EllipticCurve :=
  match p, q with
  | none, q => (Except.ok q, E)
  | p, none => (Except.ok p, E)
  | some p, some q =>
    if p = q then
      if Int.gcd (2 * p.y) E.N ≠ 1 then
        (Except.error CannotAdd.mk, { E with div := (Int.gcd (2 * p.y) E.N : Int) })
      else
        let slope := (3 * p.x * p.x + E.a) * inverse (2 * p.y) E.N
        let x := (slope * slope - 2 * p.x) % E.N
        let y := (slope * (p.x - x) - p.y) % E.N
        (Except.ok (some ⟨x, y⟩), E)
    else
      if Int.gcd (q.x - p.x) E.N ≠ 1 then
        (Except.error CannotAdd.mk, { E with div := (Int.gcd (q.x - p.x) E.N : Int) })
      else
        let slope := (q.y - p.y) * inverse (q.x - p.x) E.N
        let x3 := (slope * slope - p.x - q.x) % E.N
        let y3 := (slope * (p.x - x3) - p.y) % E.N
        (Except.ok (some ⟨x3, y3⟩), E)

/-- `EllipticCurve.sum` (lines 39-70): runs the `try` body and catches
`CannotAdd`, converting it into the `None` return value of line 70. -/
def EllipticCurve.sum (E : EllipticCurve) (p q : Option Point) :
    Option Point × EllipticCurve :=
  match sumBody E p q with
  | (Except.ok r, E') => (r, E')
  | (Except.error _, E') => (none, E')

/-- Least-significant-bit-first binary digits of k, via fuel-bounded structural
recursion (`bitsLSBAux fuel k` agrees with the digits whenever `k ≤ fuel`). -/
def bitsLSBAux : Nat → Nat → List Bool
  | _, 0 => []
  | 0, _ + 1 => []
  | fuel + 1, k + 1 => decide ((k + 1) % 2 = 1) :: bitsLSBAux fuel ((k + 1) / 2)

/-- The string `bin(k)[2:]` of line 80 as a most-significant-bit-first list of
Booleans; `bin(0)[2:]` is the single character "0". -/
def bitsMSB (k : Nat) : List Bool :=
  if k = 0 then [false] else (bitsLSBAux k k).reverse

/-- The doubling loop of `mult` (lines 84-87): starting from `p`, append `n`
successive doublings, threading the curve state through each `sum` call. -/
def powersList (E : EllipticCurve) (p : Option Point) : Nat → List (Option Point) × EllipticCurve
  | 0 => ([p], E)
  | n + 1 =>
    let r := E.sum p p
    let rest := powersList r.2 r.1 n
    (p :: rest.1, rest.2)

/-- The accumulation loop of `mult` (lines 89-93): for each set bit of the
binary expansion (position i, most significant first) add `powers_of_two[i]`
to the accumulator `q`, which starts at `None`. -/
def accumulate (E : EllipticCurve) :
    List (Option Point) → List Bool → Option Point → Option Point × EllipticCurve
  | p :: ps, true :: bs, q =>
    let r := E.sum p q
    accumulate r.2 ps bs r.1
  | _ :: ps, false :: bs, q => accumulate E ps bs q
  | _, _, q => (q, E)

/-- `EllipticCurve.mult` (lines 72-96): binary double-and-add.  The
`except CannotAdd` handler of line 95 is unreachable because `sum` already
catches the exception, so the body is an ordinary composition of `sum` calls. -/
def EllipticCurve.mult (E : EllipticCurve) (p : Option Point) (k : Nat) :
    Option Point × EllipticCurve :=
  match p with
  | none => (none, E)
  | some p0 =>
    let bs := bitsMSB k
    let pw := powersList E (some p0) (bs.length - 1)
    accumulate pw.2 pw.1 bs none

/-- A single `sum` or `mult` call, for reasoning about arbitrary sequences of
operations on one curve. -/
inductive Op where
  | opSum (p q : Option Point)
  | opMult (p : Option Point) (k : Nat)

/-- The curve state after one operation. -/
def applyOp (E : EllipticCurve) : Op → EllipticCurve
  | Op.opSum p q => (E.sum p q).2
  | Op.opMult p k => (E.mult p k).2

/-- The curve state after a sequence of operations. -/
def applyOps (E : EllipticCurve) (ops : List Op) : EllipticCurve :=
  List.foldl applyOp E ops

/-- The `while E.div == 1` loop of `Lenstra` (lines 113-122), with fuel:
`none` means the fuel ran out before the loop exited; `some d` means the loop
exited (via the `break` of line 117 or the loop condition) returning `E.div`. -/
def lenstraLoop (E : EllipticCurve) (point : Option Point) (i : Nat) : Nat → Option Int
  | 0 => none
  | fuel + 1 =>
    if E.div = 1 then
      match point with
      | none => some E.div
      | some _ =>
        let r := E.mult point i
        lenstraLoop r.2 r.1 (i + 1) fuel
  else some E.div

/-- `Lenstra` (lines 108-122), with the random draws `x0, y0, a` as explicit
parameters and the loop bounded by fuel. -/
def Lenstra (N x0 y0 a : Int) (fuel : Nat) : Option Int :=
  let b := (y0 * y0 - x0 * x0 * x0 - a * x0) % N
  let E := EllipticCurve.init a b N
  lenstraLoop E (some ⟨x0, y0⟩) 1 fuel

/-- How one curve state may evolve into another under the operations of the
source: the construction parameters `a`, `b`, `N` never change, and `div`
either stays what it was or has been overwritten by some `gcd` with `N` that
the code checked to be different from 1 (lines 50-52 and 61-63). -/
def Evolves (E E' : EllipticCurve) : Prop :=
  E'.a = E.a ∧ E'.b = E.b ∧ E'.N = E.N ∧
    (E'.div = E.div ∨ (E'.div ∣ E.N ∧ (E.N ≠ 0 → 1 < E'.div)))

lemma evolves_refl (E : EllipticCurve) : Evolves E E :=
  ⟨rfl, rfl, rfl, Or.inl rfl⟩

lemma evolves_trans {E1 E2 E3 : EllipticCurve} (h12 : Evolves E1 E2)
    (h23 : Evolves E2 E3) : Evolves E1 E3 := by
  obtain ⟨ha, hb, hN, hd⟩ := h12
  obtain ⟨ha', hb', hN', hd'⟩ := h23
  refine ⟨ha'.trans ha, hb'.trans hb, hN'.trans hN, ?_⟩
  rcases hd' with h | ⟨hdvd, hlt⟩
  · rcases hd with h2 | ⟨hdvd2, hlt2⟩
    · exact Or.inl (h.trans h2)
    · exact Or.inr ⟨h ▸ hdvd2, fun hn => h ▸ hlt2 hn⟩
  · rw [hN] at hdvd hlt
    exact Or.inr ⟨hdvd, hlt⟩

/-- The second component of `sum` is either the unchanged curve, or the curve
with `div` overwritten by a gcd with `N` that is not 1. -/
lemma sum_snd (E : EllipticCurve) (p q : Option Point) :
    (E.sum p q).2 = E ∨
      ∃ x : Int, Int.gcd x E.N ≠ 1 ∧
        (E.sum p q).2 = { E with div := (Int.gcd x E.N : Int) } := by
  cases p with
  | none => exact Or.inl (by cases q <;> rfl)
  | some p0 =>
    cases q with
    | none => exact Or.inl rfl
    | some q0 =>
      by_cases hpq : p0 = q0
      · subst hpq
        by_cases hg : Int.gcd (2 * p0.y) E.N = 1
        · exact Or.inl (by simp [EllipticCurve.sum, sumBody, hg])
        · exact Or.inr ⟨2 * p0.y, hg, by simp [EllipticCurve.sum, sumBody, hg]⟩
      · by_cases hg : Int.gcd (q0.x - p0.x) E.N = 1
        · exact Or.inl (by simp [EllipticCurve.sum, sumBody, hpq, hg])
        · exact Or.inr ⟨q0.x - p0.x, hg, by simp [EllipticCurve.sum, sumBody, hpq, hg]⟩

lemma sum_evolves (E : EllipticCurve) (p q : Option Point) :
    Evolves E (E.sum p q).2 := by
  rcases sum_snd E p q with h | ⟨x, hx, h⟩
  · rw [h]; exact evolves_refl E
  · rw [h]
    refine ⟨rfl, rfl, rfl, Or.inr ⟨Int.gcd_dvd_right, fun hN0 => ?_⟩⟩
    have h0 : Int.gcd x E.N ≠ 0 := fun hz => hN0 (Int.gcd_eq_zero_iff.mp hz).2
    show (1 : Int) < (Int.gcd x E.N : Int)
    omega

lemma powersList_evolves (n : Nat) : ∀ (E : EllipticCurve) (p : Option Point),
    Evolves E (powersList E p n).2 := by
  induction n with
  | zero => intro E p; exact evolves_refl E
  | succ n ih =>
    intro E p
    simp only [powersList]
    exact evolves_trans (sum_evolves E p p) (ih _ _)

lemma accumulate_evolves (ps : List (Option Point)) :
    ∀ (bs : List Bool) (E : EllipticCurve) (q : Option Point),
    Evolves E (accumulate E ps bs q).2 := by
  induction ps with
  | nil => intro bs E q; cases bs <;> exact evolves_refl E
  | cons p ps ih =>
    intro bs E q
    cases bs with
    | nil => exact evolves_refl E
    | cons b bs =>
      cases b with
      | false => simp only [accumulate]; exact ih bs E q
      | true =>
        simp only [accumulate]
        exact evolves_trans (sum_evolves E p q) (ih bs _ _)

lemma mult_evolves (E : EllipticCurve) (p : Option Point) (k : Nat) :
    Evolves E (E.mult p k).2 := by
  cases p with
  | none => exact evolves_refl E
  | some p0 =>
    simp only [EllipticCurve.mult]
    exact evolves_trans (powersList_evolves _ E (some p0)) (accumulate_evolves _ _ _ _)

lemma applyOp_evolves (E : EllipticCurve) (op : Op) : Evolves E (applyOp E op) := by
  cases op with
  | opSum p q => exact sum_evolves E p q
  | opMult p k => exact mult_evolves E p k

lemma applyOps_evolves (ops : List Op) : ∀ E : EllipticCurve,
    Evolves E (applyOps E ops) := by
  induction ops with
  | nil => intro E; exact evolves_refl E
  | cons op ops ih =>
    intro E
    exact evolves_trans (applyOp_evolves E op) (ih (applyOp E op))

lemma applyOps_append (E : EllipticCurve) (l1 l2 : List Op) :
    applyOps E (l1 ++ l2) = applyOps (applyOps E l1) l2 := by
  simp [applyOps]

lemma lenstraLoop_evolves (fuel : Nat) : ∀ (E : EllipticCurve) (pt : Option Point)
    (i : Nat) (d : Int), lenstraLoop E pt i fuel = some d →
    ∃ E' : EllipticCurve, Evolves E E' ∧ E'.div = d := by
  induction fuel with
  | zero => intro E pt i d h; exact absurd h (by simp [lenstraLoop])
  | succ fuel ih =>
    intro E pt i d h
    simp only [lenstraLoop] at h
    by_cases hdiv : E.div = 1
    · rw [if_pos hdiv] at h
      cases pt with
      | none =>
        refine ⟨E, evolves_refl E, ?_⟩
        simpa using h
      | some pt0 =>
        obtain ⟨E', hev, hd⟩ := ih _ _ _ _ h
        exact ⟨E', evolves_trans (mult_evolves E (some pt0) i) hev, hd⟩
    · rw [if_neg hdiv] at h
      refine ⟨E, evolves_refl E, ?_⟩
      simpa using h

/-- Characterization of the exceptional exit of the `try` body of `sum`: it
only arises from a gcd with `N` that is not 1, recorded into `div`. -/
lemma sumBody_error (E : EllipticCurve) (p q : Option Point) (e : CannotAdd)
    (E' : EllipticCurve) (h : sumBody E p q = (Except.error e, E')) :
    ∃ x : Int, Int.gcd x E.N ≠ 1 ∧ E' = { E with div := (Int.gcd x E.N : Int) } := by
  cases p with
  | none => simp [sumBody] at h
  | some p0 =>
    cases q with
    | none => simp [sumBody] at h
    | some q0 =>
      by_cases hpq : p0 = q0
      · subst hpq
        by_cases hg : Int.gcd (2 * p0.y) E.N = 1
        · simp [sumBody, hg] at h
        · refine ⟨2 * p0.y, hg, ?_⟩
          have h2 := congrArg Prod.snd h
          simp [sumBody, hg] at h2
          exact h2.symm
      · by_cases hg : Int.gcd (q0.x - p0.x) E.N = 1
        · simp [sumBody, hpq, hg] at h
        · refine ⟨q0.x - p0.x, hg, ?_⟩
          have h2 := congrArg Prod.snd h
          simp [sumBody, hpq, hg] at h2
          exact h2.symm

/-- C1: the spec's doubling-consistency law `mult(P, 2) == sum(P, P)` fails in
the code.  On the curve with a = 1, N = 5 and P = (1, 1), the doubling does not
trigger the non-invertible-element failure (gcd(2·P.y, N) = 1), yet
`mult(P, 2)` returns P itself — the accumulation loop pairs the
most-significant bit of k with `powers_of_two[0]` = P — while
`sum(P, P)` = (2, 2), contradicting the docstring claim that `mult`
computes k·p. -/
theorem mult_two_differs_from_double :
    Int.gcd (2 * (1 : Int)) 5 = 1 ∧
    (EllipticCurve.init 1 0 5).mult (some ⟨1, 1⟩) 2 =
      (some ⟨1, 1⟩, EllipticCurve.init 1 0 5) ∧
    (EllipticCurve.init 1 0 5).sum (some ⟨1, 1⟩) (some ⟨1, 1⟩) =
      (some ⟨2, 2⟩, EllipticCurve.init 1 0 5) ∧
    ((EllipticCurve.init 1 0 5).mult (some ⟨1, 1⟩) 2).1 ≠
      ((EllipticCurve.init 1 0 5).sum (some ⟨1, 1⟩) (some ⟨1, 1⟩)).1 := by
  decide

/-- C2: the claim that `mult` stops and returns the infinity sentinel whenever
an intermediate addition sets `div` fails in the code.  With N = 15 and
P = (1, 5), the doubling inside `mult(P, 2)` sets `div` to 5, yet `mult`
continues its accumulation loop and returns the finite point (1, 5). -/
theorem mult_finite_after_failure :
    (EllipticCurve.init 0 0 15).div = 1 ∧
    (EllipticCurve.init 0 0 15).mult (some ⟨1, 5⟩) 2 =
      (some ⟨1, 5⟩, ⟨0, 0, 15, 5⟩) ∧
    ((EllipticCurve.init 0 0 15).mult (some ⟨1, 5⟩) 2).2.div ≠ 1 ∧
    ((EllipticCurve.init 0 0 15).mult (some ⟨1, 5⟩) 2).1 ≠ none := by
  decide

/-- C3: on a curve constructed with modulus N ≥ 2, `div` starts at 1; after
any sequence of `sum` and `mult` operations, whenever `div` ≠ 1 it divides N
exactly; and once `div` exceeds 1 it never returns to 1 under further
operations. -/
theorem div_starts_one_divides_and_stays (a b N : Int) (ops : List Op)
    (hN : 2 ≤ N) :
    (EllipticCurve.init a b N).div = 1 ∧
    ((applyOps (EllipticCurve.init a b N) ops).div ≠ 1 →
      (applyOps (EllipticCurve.init a b N) ops).N %
        (applyOps (EllipticCurve.init a b N) ops).div = 0) ∧
    (∀ i j : Nat, i ≤ j →
      1 < (applyOps (EllipticCurve.init a b N) (ops.take i)).div →
      1 < (applyOps (EllipticCurve.init a b N) (ops.take j)).div) := by
  refine ⟨rfl, ?_, ?_⟩
  · intro hne
    obtain ⟨-, -, hNf, hd⟩ := applyOps_evolves ops (EllipticCurve.init a b N)
    rcases hd with h1 | ⟨hdvd, -⟩
    · exact absurd h1 hne
    · rw [hNf]
      exact Int.emod_eq_zero_of_dvd hdvd
  · intro i j hij hlt
    have hsplit : ops.take j = ops.take i ++ (ops.take j).drop i := by
      conv_lhs => rw [← List.take_append_drop i (ops.take j)]
      rw [List.take_take, Nat.min_eq_left hij]
    rw [hsplit, applyOps_append]
    obtain ⟨-, -, hNf, hd⟩ :=
      applyOps_evolves ((ops.take j).drop i)
        (applyOps (EllipticCurve.init a b N) (ops.take i))
    have hEiN : (applyOps (EllipticCurve.init a b N) (ops.take i)).N = N := by
      obtain ⟨-, -, hN2, -⟩ := applyOps_evolves (ops.take i) (EllipticCurve.init a b N)
      exact hN2
    rcases hd with h1 | ⟨-, hgt⟩
    · rw [h1]; exact hlt
    · exact hgt (by rw [hEiN]; omega)

/-- C3 witness: the invariant instantiated on N = 6 with a single doubling
that records the factor 2. -/
theorem div_starts_one_divides_and_stays_witness :
    (2 : Int) ≤ 6 ∧
    ((EllipticCurve.init 0 0 6).div = 1 ∧
    ((applyOps (EllipticCurve.init 0 0 6) [Op.opSum (some ⟨1, 3⟩) (some ⟨1, 3⟩)]).div ≠ 1 →
      (applyOps (EllipticCurve.init 0 0 6) [Op.opSum (some ⟨1, 3⟩) (some ⟨1, 3⟩)]).N %
        (applyOps (EllipticCurve.init 0 0 6) [Op.opSum (some ⟨1, 3⟩) (some ⟨1, 3⟩)]).div = 0) ∧
    (∀ i j : Nat, i ≤ j →
      1 < (applyOps (EllipticCurve.init 0 0 6) ([Op.opSum (some ⟨1, 3⟩) (some ⟨1, 3⟩)].take i)).div →
      1 < (applyOps (EllipticCurve.init 0 0 6) ([Op.opSum (some ⟨1, 3⟩) (some ⟨1, 3⟩)].take j)).div)) :=
  ⟨by decide,
    div_starts_one_divides_and_stays 0 0 6 [Op.opSum (some ⟨1, 3⟩) (some ⟨1, 3⟩)] (by decide)⟩

/-- C4: whenever the `Lenstra` loop terminates (within any fuel bound) its
return value d satisfies 1 ≤ d ≤ N and divides N exactly, for every modulus
N ≥ 2 and every outcome x0, y0, a of the random draws. -/
theorem lenstra_returns_divisor (N x0 y0 a : Int) (fuel : Nat) (d : Int)
    (hN : 2 ≤ N) (h : Lenstra N x0 y0 a fuel = some d) :
    1 ≤ d ∧ d ≤ N ∧ N % d = 0 := by
  simp only [Lenstra] at h
  obtain ⟨E', hev, hdiv⟩ := lenstraLoop_evolves fuel _ _ _ _ h
  obtain ⟨-, -, hNf, hd⟩ := hev
  rcases hd with h1 | ⟨hdvd, hgt⟩
  · have hd1 : d = 1 := by rw [← hdiv, h1]; rfl
    rw [hd1]
    exact ⟨le_refl 1, by omega, Int.emod_one N⟩
  · have hdvd' : d ∣ N := by rw [← hdiv]; exact hdvd
    have hgt' : 1 < d := by
      rw [← hdiv]
      exact hgt (show (EllipticCurve.init a ((y0 * y0 - x0 * x0 * x0 - a * x0) % N) N).N ≠ 0 by
        simp [EllipticCurve.init]; omega)
    exact ⟨by omega, Int.le_of_dvd (by omega) hdvd', Int.emod_eq_zero_of_dvd hdvd'⟩

/-- C4 witness: on N = 6 with x0 = y0 = a = 1 and fuel 5 the loop terminates
with the divisor 2. -/
theorem lenstra_returns_divisor_witness :
    ((2 : Int) ≤ 6 ∧ Lenstra 6 1 1 1 5 = some 2) ∧
      (1 ≤ (2 : Int) ∧ (2 : Int) ≤ 6 ∧ (6 : Int) % 2 = 0) :=
  ⟨⟨by decide, by decide⟩, lenstra_returns_divisor 6 1 1 1 5 2 (by decide) (by decide)⟩

/-- C5: doubling a finite point whose denominator 2·P.y shares a nontrivial
factor with N returns the infinity sentinel and records exactly
gcd(2·P.y, N) in `div`. -/
theorem sum_double_noninvertible (E : EllipticCurve) (p : Point)
    (h : 1 < Int.gcd (2 * p.y) E.N) :
    E.sum (some p) (some p) = (none, { E with div := (Int.gcd (2 * p.y) E.N : Int) }) := by
  have hg : Int.gcd (2 * p.y) E.N ≠ 1 := by omega
  simp [EllipticCurve.sum, sumBody, hg]

/-- C5 witness: N = 15, P = (1, 5), where gcd(2·5, 15) = 5. -/
theorem sum_double_noninvertible_witness :
    1 < Int.gcd (2 * (5 : Int)) 15 ∧
    (EllipticCurve.init 0 0 15).sum (some ⟨1, 5⟩) (some ⟨1, 5⟩) =
      (none, { EllipticCurve.init 0 0 15 with div := (Int.gcd (2 * (5 : Int)) 15 : Int) }) :=
  ⟨by decide, sum_double_noninvertible (EllipticCurve.init 0 0 15) ⟨1, 5⟩ (by decide)⟩

/-- C6: the infinity sentinel is a two-sided identity for `sum`, and these
calls leave the curve state (in particular `div`) unchanged. -/
theorem sum_infinity_identity (E : EllipticCurve) (P : Option Point) :
    E.sum P none = (P, E) ∧ E.sum none P = (P, E) := by
  cases P <;> exact ⟨rfl, rfl⟩

/-- C7: if the working point is the infinity sentinel while `div` is still 1,
the `Lenstra` loop stops at once (for any remaining positive fuel) and
returns 1. -/
theorem loop_stops_on_infinity (E : EllipticCurve) (i fuel : Nat)
    (h : E.div = 1) : lenstraLoop E none i (fuel + 1) = some 1 := by
  simp [lenstraLoop, h]

/-- C7 witness: a fresh curve over N = 6 with the sentinel as working point. -/
theorem loop_stops_on_infinity_witness :
    (EllipticCurve.init 0 0 6).div = 1 ∧
      lenstraLoop (EllipticCurve.init 0 0 6) none 1 (0 + 1) = some 1 :=
  ⟨rfl, loop_stops_on_infinity (EllipticCurve.init 0 0 6) 1 0 rfl⟩

/-- C8: every `CannotAdd` raised inside the `try` body of `sum` is caught
before leaving `sum`: whenever the body exits exceptionally, `sum` returns the
infinity sentinel with the same curve state, and that state has `div` ≠ 1.
`mult` and `Lenstra` are built on `sum` alone, so no exception reaches the
caller of `Lenstra`. -/
theorem cannotAdd_caught (E : EllipticCurve) (p q : Option Point)
    (e : CannotAdd) (E' : EllipticCurve)
    (h : sumBody E p q = (Except.error e, E')) :
    E.sum p q = (none, E') ∧ E'.div ≠ 1 := by
  obtain ⟨x, hx, hE⟩ := sumBody_error E p q e E' h
  constructor
  · unfold EllipticCurve.sum
    rw [h]
  · rw [hE]
    show (Int.gcd x E.N : Int) ≠ 1
    exact_mod_cast hx

/-- C8 witness: the failing doubling on N = 15 at P = (1, 5). -/
theorem cannotAdd_caught_witness :
    sumBody (EllipticCurve.init 0 0 15) (some ⟨1, 5⟩) (some ⟨1, 5⟩) =
      (Except.error CannotAdd.mk, ⟨0, 0, 15, 5⟩) ∧
    ((EllipticCurve.init 0 0 15).sum (some ⟨1, 5⟩) (some ⟨1, 5⟩) =
        (none, ⟨0, 0, 15, 5⟩) ∧
      (⟨0, 0, 15, 5⟩ : EllipticCurve).div ≠ 1) :=
  ⟨rfl,
    cannotAdd_caught (EllipticCurve.init 0 0 15) (some ⟨1, 5⟩) (some ⟨1, 5⟩)
      CannotAdd.mk ⟨0, 0, 15, 5⟩ rfl⟩

/-- C9: adding two distinct finite points with the same x-coordinate (in
particular a point and its negation) on a curve with N ≥ 2 records
`div` = gcd(0, N) = N and returns the infinity sentinel, instead of the group
identity. -/
theorem sum_equal_x_breaks (E : EllipticCurve) (p q : Point) (hN : 2 ≤ E.N)
    (hpq : p ≠ q) (hx : p.x = q.x) :
    E.sum (some p) (some q) = (none, { E with div := E.N }) := by
  have hx0 : q.x - p.x = 0 := by omega
  have hg : Int.gcd (q.x - p.x) E.N = E.N.natAbs := by
    rw [hx0]; exact Int.gcd_zero_left E.N
  have hg1 : Int.gcd (q.x - p.x) E.N ≠ 1 := by rw [hg]; omega
  have hcast : (Int.gcd (q.x - p.x) E.N : Int) = E.N := by
    rw [hg]; exact Int.natAbs_of_nonneg (by omega)
  simp [EllipticCurve.sum, sumBody, hpq, hg1, hcast]

/-- C9 witness: N = 6, p = (2, 1), q = (2, 3). -/
theorem sum_equal_x_breaks_witness :
    ((2 : Int) ≤ (EllipticCurve.init 0 0 6).N ∧ (⟨2, 1⟩ : Point) ≠ ⟨2, 3⟩ ∧
      (⟨2, 1⟩ : Point).x = (⟨2, 3⟩ : Point).x) ∧
    (EllipticCurve.init 0 0 6).sum (some ⟨2, 1⟩) (some ⟨2, 3⟩) =
      (none, { EllipticCurve.init 0 0 6 with div := (EllipticCurve.init 0 0 6).N }) :=
  ⟨⟨by decide, by decide, rfl⟩,
    sum_equal_x_breaks (EllipticCurve.init 0 0 6) ⟨2, 1⟩ ⟨2, 3⟩ (by decide)
      (by decide) rfl⟩

/-- C10: multiplying any point by 0 returns the infinity sentinel and leaves
the curve state (in particular `div`) untouched: the binary expansion "0" has
no set bit, so the accumulator is returned still equal to the sentinel. -/
theorem mult_zero_infinity (E : EllipticCurve) (p : Option Point) :
    E.mult p 0 = (none, E) := by
  cases p <;> rfl
